import Mathlib

/-!
Verification of the AllScale stencil operator
(`code/api/include/allscale/api/user/operator/stencil.h`).

The C++ source is shallowly embedded:

* machine integers (`std::int64_t` index type) are modelled as `Int`;
  C++ `/` on `int` truncates towards zero, which is `Int.tdiv`;
* `std::size_t` time values are modelled as `Nat`;
* the statically sized N-dimensional structures (`Base<dims>`,
  `Slopes<dims>`, coordinates) are modelled as lists of length `dims`,
  outermost dimension first, matching the recursion order of
  `plain_scanner`;
* the layer loop of `ExecutionPlan::create` (`for(t0=0; t0<steps; t0+=height)`)
  is modelled with explicit fuel; `none` marks a run that exhausts any
  amount of fuel, i.e. a non-terminating loop (the loop makes no progress
  iff `height = 0`, which is proved below);
* grid containers are modelled as functions from coordinates to values;
  the parallel loops write pairwise distinct cells of the target buffer
  from the other buffer only, so a full parallel sweep is modelled as the
  bulk functional update, and the task-graph execution of `runParallel`
  is modelled by its dependency-respecting linearisation (popcount
  ascending, index ascending within a popcount class, which is the order
  in which `enumTaskGraph` issues the tasks).
-/

namespace StencilModel

/-- Number of occurrences of `x` in a list (explicitly `DecidableEq`-based). -/
def cnt {α : Type} [DecidableEq α] (x : α) : List α → Nat
  | [] => 0
  | y :: ys => (if y = x then 1 else 0) + cnt x ys

/-- The half-open integer interval `[a, b)` as a list, in increasing order. -/
def intRange (a b : Int) : List Int :=
  (List.range (b - a).toNat).map (fun (k : Nat) => a + (k : Int))

/-- One half-open integer range `[lo, hi)`; embeds `Base<dims>::range`
(`lo` is `begin`, `hi` is `end`). -/
structure Rg where
  lo : Int
  hi : Int
deriving DecidableEq, Repr

/-- Width `end - begin` of a range (`Base::getWidth`). -/
def rgWidth (r : Rg) : Int := r.hi - r.lo

/-- One dimension of the `plain_scanner` recursion: the cells of `r`
visited at a fixed time, wrapped against the grid extent `limit`.
Mirrors the body shared by `plain_scanner<dim>` and `plain_scanner<0>`:
shift the range down by `limit` when `from > length`, scan up to
`min(to, length)`, then scan `[0, to - length)` when `to > length`. -/
def scanRow (r : Rg) (limit : Int) : List Int :=
  let f := if limit < r.lo then r.lo - limit else r.lo
  let t := if limit < r.lo then r.hi - limit else r.hi
  let seg := intRange f (min t limit)
  if t ≤ limit then seg else seg ++ intRange 0 (t - limit)

/-- The full `plain_scanner` recursion over all dimensions: the list of
coordinates (outermost dimension first) visited for base `rs` against
extents `ls`, in visit order. -/
def scanCells : List Rg → List Int → List (List Int)
  | [], _ => [[]]
  | _ :: _, [] => []
  | r :: rs, l :: ls =>
    (scanRow r l).flatMap (fun v => (scanCells rs ls).map (fun c => v :: c))

/-- A space-time trapezoid; embeds `Zoid<dims>` (base, slopes, t_begin, t_end). -/
structure Zoid where
  base : List Rg
  slopes : List Int
  tBegin : Nat
  tEnd : Nat
deriving DecidableEq, Repr

/-- Temporal height `t_end - t_begin` (`Zoid::getHeight`; times are
`std::size_t` with `t_begin ≤ t_end` in every reachable zoid). -/
def getHeight (z : Zoid) : Nat := z.tEnd - z.tBegin

/-- Width of the base in dimension `j`. -/
def baseWidth (z : Zoid) (j : Nat) : Int := rgWidth (z.base.getD j ⟨0, 0⟩)

/-- Projected (shadow) width in dimension `j` (`Zoid::getWidth(dim)`):
the base width, plus `2 * height` for an opening slope. -/
def projWidth (z : Zoid) (j : Nat) : Int :=
  baseWidth z j + (if z.slopes.getD j 0 < 0 then 2 * (getHeight z : Int) else 0)

/-- Maximum base width over all dimensions (`Base::getMaximumWidth`). -/
def maxBaseWidth (z : Zoid) : Int :=
  match z.base with
  | [] => 0
  | r :: rs => (rs.map rgWidth).foldl max (rgWidth r)

/-- Terminal test (`Zoid::isTerminal`): height at most 1 and every base
width below 3. -/
def isTerminal (z : Zoid) : Bool :=
  decide (getHeight z ≤ 1) && decide (maxBaseWidth z < 3)

/-- Splitability along one dimension (`Zoid::isSplitable`): the projected
width exceeds `4 * height`. -/
def isSplitableAt (z : Zoid) (j : Nat) : Bool :=
  decide (projWidth z j > 4 * (getHeight z : Int))

/-- Splitability in space (`Zoid::isSpaceSplitable`): some dimension is
splitable. -/
def isSpaceSplitable (z : Zoid) : Bool :=
  (List.range z.base.length).any (isSplitableAt z)

/-- The running maximum loop of `Zoid::splitSpace` that selects the split
dimension: scan the dimensions, keep the first one whose projected width
strictly exceeds the running maximum (initially 0). -/
def splitDimAux (z : Zoid) : List Nat → Nat × Int → Nat × Int
  | [], acc => acc
  | i :: is, acc =>
    splitDimAux z is (if projWidth z i > acc.2 then (i, projWidth z i) else acc)

/-- The dimension `Zoid::splitSpace` splits along. -/
def splitDim (z : Zoid) : Nat :=
  (splitDimAux z (List.range z.base.length) (0, 0)).1

/-- Result of `Zoid::splitTime`. -/
structure TimeDecomposition where
  top : Zoid
  bottom : Zoid
deriving DecidableEq, Repr

/-- Time split (`Zoid::splitTime`): split at `t_begin + height/2`; the top
part gets the base narrowed by `slopes * split` on both ends. -/
def splitTime (z : Zoid) : TimeDecomposition :=
  let split := getHeight z / 2
  let mid := List.zipWith
    (fun r s => Rg.mk (r.lo + s * (split : Int)) (r.hi - s * (split : Int)))
    z.base z.slopes
  { top := ⟨mid, z.slopes, z.tBegin + split, z.tEnd⟩
    bottom := ⟨z.base, z.slopes, z.tBegin, z.tBegin + split⟩ }

/-- Result of `Zoid::splitSpace`. -/
structure SpaceDecomposition where
  l : Zoid
  c : Zoid
  r : Zoid
  opening : Bool
deriving DecidableEq, Repr

/-- Space split (`Zoid::splitSpace`): split the chosen dimension at
`center = (begin + end) / 2` (C++ truncating division), widened by the
height on an opening slope; the centre fragment gets its slope negated. -/
def splitSpace (z : Zoid) : SpaceDecomposition :=
  let d := splitDim z
  let rg := z.base.getD d ⟨0, 0⟩
  let sd := z.slopes.getD d 0
  let center := Int.tdiv (rg.lo + rg.hi) 2
  let hz : Int := (getHeight z : Int)
  let left := if sd < 0 then center - hz else center
  let right := if sd < 0 then center + hz else center
  { l := { z with base := z.base.set d ⟨rg.lo, left⟩ }
    c := { z with base := z.base.set d ⟨left, right⟩
                  slopes := z.slopes.set d (sd * (-1)) }
    r := { z with base := z.base.set d ⟨right, rg.hi⟩ }
    opening := decide (sd < 0) }

/-- One time step of the scanned base inside `Zoid::forEach`:
`begin += slopes[i]`, `end -= slopes[i]` in every dimension. -/
def advanceBase (base : List Rg) (slopes : List Int) : List Rg :=
  List.zipWith (fun r s => Rg.mk (r.lo + s) (r.hi - s)) base slopes

/-- The time loop of `Zoid::forEach`: scan `n` consecutive time rows
starting at time `t`, advancing the base by the slopes after each row.
Each visited space-time cell is recorded as `(t, coordinate)`. -/
def forEachAux (slopes : List Int) (limits : List Int) :
    List Rg → Nat → Nat → List (Nat × List Int)
  | _, _, 0 => []
  | base, t, n + 1 =>
    (scanCells base limits).map (fun c => (t, c))
      ++ forEachAux slopes limits (advanceBase base slopes) (t + 1) n

/-- All space-time cells visited by `Zoid::forEach` (the even/odd operation
dispatch is by the parity of the recorded time). -/
def forEachCells (z : Zoid) (limits : List Int) : List (Nat × List Int) :=
  forEachAux z.slopes limits z.base z.tBegin (getHeight z)

/-- Minimum width over all dimensions (`Base::getMinimumWidth`; for a full
base the widths are the grid extents). -/
def minWidth : List Int → Int
  | [] => 0
  | x :: xs => xs.foldl min x

/-- The per-dimension split points of `ExecutionPlan::create`: for extent
`L` and minimum width `w`, `mid = L - (L - w)/2` (C++ truncating
division), giving `left = [0, mid)` and `right = [mid, L)`. -/
def splitsOf (extents : List Int) (w : Int) : List (Rg × Rg) :=
  extents.map (fun L =>
    (Rg.mk 0 (L - Int.tdiv (L - w) 2), Rg.mk (L - Int.tdiv (L - w) 2) L))

/-- The base of the layer zoid with bitmask `m` (`ExecutionPlan::create`
inner loop): dimension `j` takes the right split iff bit `j` of `m` is
set.  Dimension `j` of this recursion tests `(m >>> j).testBit 0`, which
is `m & (1 << j)` of the source. -/
def maskBase (m : Nat) : List (Rg × Rg) → List Rg
  | [] => []
  | p :: ps => (if m.testBit 0 then p.2 else p.1) :: maskBase (m / 2) ps

/-- The slopes of the layer zoid with bitmask `m`: `-1` (opening) on set
bits, `+1` (closing) on clear bits. -/
def maskSlopes (m : Nat) : List (Rg × Rg) → List Int
  | [] => []
  | _ :: ps => (if m.testBit 0 then -1 else 1) :: maskSlopes (m / 2) ps

/-- One layer of the execution plan: the `2^dims` zoids indexed by bitmask
`0 .. 2^dims - 1`, all spanning times `[t0, t1)`. -/
def mkLayer (splits : List (Rg × Rg)) (t0 t1 : Nat) : List Zoid :=
  (List.range (2 ^ splits.length)).map
    (fun m => ⟨maskBase m splits, maskSlopes m splits, t0, t1⟩)

/-- The layer loop `for(t0 = 0; t0 < steps; t0 += height)` of
`ExecutionPlan::create`, with explicit fuel; each round emits the layer
`[t0, min(t0 + height, steps))`.  `none` means the fuel was exhausted
with the loop still running; for `height = 0` this holds for every
amount of fuel, i.e. the C++ loop never terminates. -/
def createLoopF (splits : List (Rg × Rg)) (h steps : Nat) :
    Nat → Nat → Option (List (List Zoid))
  | fuel, t0 =>
    if steps ≤ t0 then some []
    else
      match fuel with
      | 0 => none
      | fuel + 1 =>
        (createLoopF splits h steps fuel (t0 + h)).map
          (fun rest => mkLayer splits t0 (min (t0 + h) steps) :: rest)

/-- The layer height `min_width / 2` of `ExecutionPlan::create`. -/
def planHeight (extents : List Int) : Nat :=
  (Int.tdiv (minWidth extents) 2).toNat

/-- `ExecutionPlan::create(base, steps)` for a full base with the given
extents.  `steps.toNat` rounds of fuel always suffice when the layer
height is at least 1 (each round advances `t0` by the height), so
`none` exactly marks the non-terminating `height = 0` runs. -/
def createOpt (extents : List Int) (steps : Int) : Option (List (List Zoid)) :=
  createLoopF (splitsOf extents (minWidth extents)) (planHeight extents)
    steps.toNat steps.toNat 0

/-- Number of set bits (`__builtin_popcount`). -/
def popcount : Nat → Nat
  | 0 => 0
  | n + 1 => (n + 1) % 2 + popcount ((n + 1) / 2)
decreasing_by exact Nat.div_lt_self (by omega) (by omega)

/-- Stable insertion into a list sorted by ascending popcount. -/
def insertByPop (x : Nat) : List Nat → List Nat
  | [] => [x]
  | y :: ys =>
    if popcount y ≤ popcount x then y :: insertByPop x ys else x :: y :: ys

/-- Stable insertion sort by ascending popcount.  `runSequential` sorts
the task indices with `std::sort` by their popcount; applied to the
ascending index list this yields popcount-ascending order with
ascending indices inside each popcount class, which is also the order
`enumTaskGraph` issues the tasks of a layer in `runParallel`. -/
def sortByPop : List Nat → List Nat
  | [] => []
  | x :: xs => insertByPop x (sortByPop xs)

/-- The double-buffer time loop shared by the three iterative strategies
(`for(t = 0; t < steps; t++) { write y from x; swap(x, y); }`).
Containers are modelled by their contents `ι → V`; one sweep writes every
index of the target buffer from the read buffer, which is exact for the
sequential loop and for the parallel loops since all writes go to
pairwise distinct cells of `y` and all reads to `x`.  Returns the final
`(x, y)` contents. -/
def iterLoop {ι V : Type} (f : Nat → ι → (ι → V) → V) :
    Nat → Nat → (ι → V) → (ι → V) → ((ι → V) × (ι → V))
  | _, 0, x, y => (x, y)
  | t, n + 1, x, _ => iterLoop f (t + 1) n (fun i => f t i x) x

/-- Contents of `a` after `sequential_iterative::process(a, steps, f)` has
been awaited: run the loop `steps` times (an `int` steps value below zero
runs zero iterations), then the final `if (x != &a) swap(a, b)` leaves
the newest buffer in `a`, i.e. the first component.  `b0` is the
indeterminate initial contents of the shadow buffer `b`. -/
def seqIterProcess {ι V : Type} (a : ι → V) (b0 : ι → V) (steps : Int)
    (f : Nat → ι → (ι → V) → V) : ι → V :=
  (iterLoop f 0 steps.toNat a b0).1

/-- Contents of `a` after `coarse_grained_iterative::process` (same data
flow as the sequential loop, with a full barrier between steps). -/
def coarseIterProcess {ι V : Type} (a : ι → V) (b0 : ι → V) (steps : Int)
    (f : Nat → ι → (ι → V) → V) : ι → V :=
  (iterLoop f 0 steps.toNat a b0).1

/-- Contents of `a` after `fine_grained_iterative::process` (same data
flow, with neighbourhood-synchronised dependencies awaited at the end). -/
def fineIterProcess {ι V : Type} (a : ι → V) (b0 : ι → V) (steps : Int)
    (f : Nat → ι → (ι → V) → V) : ι → V :=
  (iterLoop f 0 steps.toNat a b0).1

/-- Pointwise update of grid contents at one coordinate. -/
def writeCell {V : Type} (g : List Int → V) (p : List Int) (v : V) :
    List Int → V :=
  fun q => if q = p then v else g q

/-- Execute one space-time cell against the double-buffer pair `(a, b)`:
the even operation (even `t`) writes `b[p] = f(t, p, a)`, the odd one
writes `a[p] = f(t, p, b)`, as wired up in the recursive strategies. -/
def execCell {V : Type} (f : Nat → List Int → (List Int → V) → V)
    (s : (List Int → V) × (List Int → V)) (tc : Nat × List Int) :
    (List Int → V) × (List Int → V) :=
  if tc.1 % 2 = 0 then (s.1, writeCell s.2 tc.2 (f tc.1 tc.2 s.1))
  else (writeCell s.1 tc.2 (f tc.1 tc.2 s.2), s.2)

/-- Execute one zoid sequentially (`Zoid::forEach` over the wrapped
even/odd operations). -/
def execZoid {V : Type} (f : Nat → List Int → (List Int → V) → V)
    (limits : List Int) (s : (List Int → V) × (List Int → V)) (z : Zoid) :
    (List Int → V) × (List Int → V) :=
  (forEachCells z limits).foldl (execCell f) s

/-- `ExecutionPlan::runSequential`: process the layers in order; inside a
layer process the zoids in popcount-sorted index order. -/
def runSequentialModel {V : Type} (f : Nat → List Int → (List Int → V) → V)
    (limits : List Int) (plan : List (List Zoid))
    (s : (List Int → V) × (List Int → V)) :
    (List Int → V) × (List Int → V) :=
  plan.foldl
    (fun s layer =>
      ((sortByPop (List.range layer.length)).map
          (fun i => layer.getD i ⟨[], [], 0, 0⟩)).foldl (execZoid f limits) s)
    s

/-- `ExecutionPlan::runParallel`, modelled by its dependency-respecting
linearisation: `enumTaskGraph` issues the tasks of a layer in
popcount-ascending (then index-ascending) order, each task depending on
its immediate-subset masks and task 0 on the previous layer, so this
sequential execution order is consistent with the task dependency
order. -/
def runParallelModel {V : Type} (f : Nat → List Int → (List Int → V) → V)
    (limits : List Int) (plan : List (List Zoid))
    (s : (List Int → V) × (List Int → V)) :
    (List Int → V) × (List Int → V) :=
  plan.foldl
    (fun s layer =>
      ((sortByPop (List.range layer.length)).map
          (fun i => layer.getD i ⟨[], [], 0, 0⟩)).foldl (execZoid f limits) s)
    s

/-- Contents of `a` after `sequential_recursive::process(a, steps, f)`:
build the plan (`none` if plan construction never terminates), run it,
then `if (steps % 2) swap(a, b)` selects the buffer holding the final
state. -/
def seqRecProcess {V : Type} (extents : List Int) (a0 b0 : List Int → V)
    (steps : Int) (f : Nat → List Int → (List Int → V) → V) :
    Option (List Int → V) :=
  (createOpt extents steps).map (fun plan =>
    let s := runSequentialModel f extents plan (a0, b0)
    if steps % 2 = 0 then s.1 else s.2)

/-- Contents of `a` after `parallel_recursive::process(a, steps, f)` has
been awaited. -/
def parRecProcess {V : Type} (extents : List Int) (a0 b0 : List Int → V)
    (steps : Int) (f : Nat → List Int → (List Int → V) → V) :
    Option (List Int → V) :=
  (createOpt extents steps).map (fun plan =>
    let s := runParallelModel f extents plan (a0, b0)
    if steps % 2 = 0 then s.1 else s.2)

/-- The base of `Zoid::forEach` after `τ` advance steps. -/
def advIter : Nat → List Rg → List Int → List Rg
  | 0, base, _ => base
  | τ + 1, base, slopes => advIter τ (advanceBase base slopes) slopes

/-- All space-time cells visited over all zoids of all layers of a plan
(the order inside each zoid is the `forEach` order). -/
def planCellsList (plan : List (List Zoid)) (limits : List Int) :
    List (Nat × List Int) :=
  plan.flatMap (fun layer => layer.flatMap (fun z => forEachCells z limits))

/-- Membership of a coordinate in the grid with the given extents. -/
def inCell : List Int → List Int → Bool
  | [], [] => true
  | v :: vs, L :: Ls => decide (0 ≤ v) && decide (v < L) && inCell vs Ls
  | _, _ => false

/-- Spec §4.4 wording: the split point `mid_i = extent_i - (extent_i - width)/2`. -/
def specMid (L w : Int) : Int := L - Int.tdiv (L - w) 2

/-- Spec §4.4 wording: the base of the layer zoid with bitmask `m`:
for each dimension `i`, `right_i = [mid_i, extent_i)` if bit `i` of `m`
is set, else `left_i = [0, mid_i)`. -/
def specBase (extents : List Int) (w : Int) (m : Nat) : List Rg :=
  (List.range extents.length).map (fun i =>
    if m.testBit i then Rg.mk (specMid (extents.getD i 0) w) (extents.getD i 0)
    else Rg.mk 0 (specMid (extents.getD i 0) w))

/-- Spec §4.4 wording: slope `-1` (opening) on set bits of the mask,
`+1` (closing) on clear bits. -/
def specSlopes (extents : List Int) (m : Nat) : List Int :=
  (List.range extents.length).map (fun i => if m.testBit i then -1 else 1)

/-- Spec §4.4 wording: the array of `2^N` zoids of one time layer,
indexed by bitmask. -/
def specLayer (extents : List Int) (w : Int) (t0 t1 : Nat) : List Zoid :=
  (List.range (2 ^ extents.length)).map
    (fun m => ⟨specBase extents w m, specSlopes extents m, t0, t1⟩)

/-- Spec §4.4 wording: emit one layer per time interval
`[t0, min(t0 + height, steps))` until `[0, steps)` is covered
(with fuel, since for `height = 0` the interval is never covered). -/
def specLayersF (extents : List Int) (w : Int) (h : Nat) :
    Nat → Nat → Nat → List (List Zoid)
  | 0, _, _ => []
  | fuel + 1, steps, t0 =>
    if steps ≤ t0 then []
    else specLayer extents w t0 (min (t0 + h) steps)
      :: specLayersF extents w h fuel steps (t0 + h)

/-- The execution plan as described by spec §4.4, with
`width = min_width`, `height = width/2`. -/
def createPlanSpec (extents : List Int) (steps : Nat) : List (List Zoid) :=
  specLayersF extents (minWidth extents) (planHeight extents) steps steps 0

/-- Total projected width of a zoid over all dimensions. -/
def sumProjWidth (z : Zoid) : Int :=
  ∑ j ∈ Finset.range z.base.length, projWidth z j

/-- Strictly smaller in the lexicographic order on
(height, total projected width). -/
def lexSmaller (x z : Zoid) : Prop :=
  getHeight x < getHeight z ∨
    (getHeight x = getHeight z ∧ sumProjWidth x < sumProjWidth z)

/-- A 1-D zoid of height 1 and width 3 with a closing slope: non-terminal,
not space-splitable, and `splitTime` reproduces it as its own top part. -/
def zoidA : Zoid := ⟨[⟨0, 3⟩], [1], 0, 1⟩

/-- A 2-D zoid whose split dimension (projected widths 12 and 10) does not
carry the maximum base width after splitting. -/
def zoidB : Zoid := ⟨[⟨0, 10⟩, ⟨0, 10⟩], [-1, 1], 0, 1⟩

/-- Spec §4.2 wording for `splitSpace` on the chosen dimension `d`:
`center = (b_d + e_d)/2`; for slope `-1`, `left = center - height` and
`right = center + height`; for slope `+1`, `left = right = center`;
`l` keeps `b_d` with `e_d = left`, `c` covers `[left, right)` with the
slope in `d` negated, `r` keeps `e_d` with `b_d = right`; the opening
flag is `slopes_d = -1`; all other fields are unchanged. -/
def specSplitSpace (z : Zoid) : SpaceDecomposition :=
  let d := splitDim z
  let b := (z.base.getD d ⟨0, 0⟩).lo
  let e := (z.base.getD d ⟨0, 0⟩).hi
  let center := Int.tdiv (b + e) 2
  let left := if z.slopes.getD d 0 = -1 then center - (getHeight z : Int) else center
  let right := if z.slopes.getD d 0 = -1 then center + (getHeight z : Int) else center
  { l := { z with base := z.base.set d ⟨b, left⟩ }
    c := { z with base := z.base.set d ⟨left, right⟩
                  slopes := z.slopes.set d (-(z.slopes.getD d 0)) }
    r := { z with base := z.base.set d ⟨right, e⟩ }
    opening := decide (z.slopes.getD d 0 = -1) }

/-! ## Properties -/

theorem cnt_nil {α : Type} [DecidableEq α] (x : α) : cnt x [] = 0 := rfl

theorem cnt_append {α : Type} [DecidableEq α] (x : α) (l₁ l₂ : List α) :
    cnt x (l₁ ++ l₂) = cnt x l₁ + cnt x l₂ := by
  induction l₁ with
  | nil => simp [cnt]
  | cons y ys ih => simp [cnt, ih]; omega

theorem intRange_nil {a b : Int} (h : b ≤ a) : intRange a b = [] := by
  unfold intRange
  have : (b - a).toNat = 0 := by omega
  simp [this]

theorem intRange_cons {a b : Int} (h : a < b) :
    intRange a b = a :: intRange (a + 1) b := by
  unfold intRange
  have h1 : (b - a).toNat = (b - (a + 1)).toNat + 1 := by omega
  rw [h1, List.range_succ_eq_map]
  simp only [List.map_cons, List.map_map, Nat.cast_zero, add_zero, List.cons.injEq]
  refine ⟨trivial, List.map_congr_left ?_⟩
  intro k _
  simp only [Function.comp_apply, Nat.succ_eq_add_one]
  push_cast
  ring

theorem cnt_intRange (v a b : Int) :
    cnt v (intRange a b) = if a ≤ v ∧ v < b then 1 else 0 := by
  by_cases hab : b ≤ a
  · rw [intRange_nil hab, cnt_nil]
    have : ¬(a ≤ v ∧ v < b) := by omega
    simp [this]
  · have hlt : a < b := by omega
    have key : ∀ (n : Nat) (a : Int), (b - a).toNat = n →
        cnt v (intRange a b) = if a ≤ v ∧ v < b then 1 else 0 := by
      intro n
      induction n with
      | zero =>
        intro a ha
        have : b ≤ a := by omega
        rw [intRange_nil this, cnt_nil]
        have : ¬(a ≤ v ∧ v < b) := by omega
        simp [this]
      | succ n ih =>
        intro a ha
        have hab2 : a < b := by omega
        rw [intRange_cons hab2]
        have ih2 := ih (a + 1) (by omega)
        simp only [cnt, ih2]
        by_cases hav : a = v
        · rw [if_pos hav]
          have hnot : ¬(a + 1 ≤ v ∧ v < b) := by omega
          rw [if_neg hnot, if_pos (by omega : a ≤ v ∧ v < b)]
        · rw [if_neg hav]
          split_ifs <;> omega
    exact key (b - a).toNat a rfl


theorem createLoopF_unfold (splits : List (Rg × Rg)) (h steps fuel t0 : Nat) :
    createLoopF splits h steps fuel t0 =
      if steps ≤ t0 then some []
      else
        match fuel with
        | 0 => none
        | fuel + 1 =>
          (createLoopF splits h steps fuel (t0 + h)).map
            (fun rest => mkLayer splits t0 (min (t0 + h) steps) :: rest) := by
  cases fuel <;> rfl

/-- With layer height 0 the layer loop of `ExecutionPlan::create` makes no
progress: no amount of fuel completes it once `t0 < steps`. -/
theorem createLoopF_height_zero (splits : List (Rg × Rg)) (steps : Nat) :
    ∀ (fuel t0 : Nat), t0 < steps → createLoopF splits 0 steps fuel t0 = none := by
  intro fuel
  induction fuel with
  | zero =>
    intro t0 ht
    rw [createLoopF_unfold, if_neg (by omega)]
  | succ n ih =>
    intro t0 ht
    rw [createLoopF_unfold, if_neg (by omega)]
    have h0 := ih (t0 + 0) (by omega)
    simp only [h0]
    rfl

/-- Claim C2: with zero steps each of the five strategies leaves the
container contents unchanged: the iterative strategies run no sweep and
skip the final buffer swap, and the recursive strategies build an empty
execution plan, run nothing, and skip the final swap. -/
theorem c2_zero_steps {ι V W : Type} (a b0 : ι → W)
    (f : Nat → ι → (ι → W) → W)
    (extents : List Int) (aG bG : List Int → V)
    (g : Nat → List Int → (List Int → V) → V) :
    seqIterProcess a b0 0 f = a ∧
    coarseIterProcess a b0 0 f = a ∧
    fineIterProcess a b0 0 f = a ∧
    seqRecProcess extents aG bG 0 g = some aG ∧
    parRecProcess extents aG bG 0 g = some aG := by
  refine ⟨rfl, rfl, rfl, ?_, ?_⟩ <;>
    simp [seqRecProcess, parRecProcess, createOpt, createLoopF,
      runSequentialModel, runParallelModel]

/-- Claim C10: for a negative steps value the three iterative strategies
terminate immediately: the time loop `for(t=0; t<steps; t++)` runs no
iteration, the read pointer still aims at `a`, no final swap happens, and
the container contents are unchanged. -/
theorem c10_negative_steps {ι V : Type} (a b0 : ι → V) (steps : Int)
    (f : Nat → ι → (ι → V) → V) (hneg : steps < 0) :
    seqIterProcess a b0 steps f = a ∧
    coarseIterProcess a b0 steps f = a ∧
    fineIterProcess a b0 steps f = a := by
  have h0 : steps.toNat = 0 := by omega
  refine ⟨?_, ?_, ?_⟩ <;>
    simp [seqIterProcess, coarseIterProcess, fineIterProcess, h0, iterLoop]

theorem c10_negative_steps_witness :
    seqIterProcess (fun _ : Fin 1 => (5 : Int)) (fun _ => 7) (-1)
        (fun _ i x => x i + 1) = (fun _ => 5) ∧
    coarseIterProcess (fun _ : Fin 1 => (5 : Int)) (fun _ => 7) (-1)
        (fun _ i x => x i + 1) = (fun _ => 5) ∧
    fineIterProcess (fun _ : Fin 1 => (5 : Int)) (fun _ => 7) (-1)
        (fun _ i x => x i + 1) = (fun _ => 5) :=
  c10_negative_steps _ _ _ _ (by decide)

/-- Claim C6 (code bug): for a container with an extent 0 and one step,
plan creation in the recursive strategies never terminates: the minimum
width is 0, so the layer height `min_width/2` is 0 and the loop
`for(t0=0; t0<steps; t0+=height)` never advances; no fuel completes it.
The claim instead promises a legal no-op for every strategy. -/
theorem c6_zero_extent_diverges :
    createOpt [0] 1 = none ∧
    ∀ fuel,
      createLoopF (splitsOf [0] (minWidth [0])) (planHeight [0]) 1 fuel 0 = none := by
  constructor
  · rfl
  · intro fuel
    have h : planHeight [0] = 0 := rfl
    rw [h]
    exact createLoopF_height_zero _ _ fuel 0 (by omega)

/-- Claim C1 (code bug): for a 2-D container with extents 5 and 1 (minimum
width 1) and one step, the two recursive strategies never produce a
result: the layer height `min_width/2` is 0 and plan creation loops
forever, while the iterative strategies terminate and update the
container — so the five strategies do not yield bit-identical contents. -/
theorem c1_min_width_one_diverges :
    createOpt [5, 1] 1 = none ∧
    ∀ fuel,
      createLoopF (splitsOf [5, 1] (minWidth [5, 1])) (planHeight [5, 1]) 1 fuel 0
        = none := by
  constructor
  · rfl
  · intro fuel
    have h : planHeight [5, 1] = 0 := rfl
    rw [h]
    exact createLoopF_height_zero _ _ fuel 0 (by omega)

theorem iterLoop_succ {ι V : Type} (f : Nat → ι → (ι → V) → V)
    (t n : Nat) (x y : ι → V) :
    iterLoop f t (n + 1) x y = iterLoop f (t + 1) n (fun i => f t i x) x := rfl

/-- The first component of the double-buffer loop state does not depend on
the initial contents of the shadow buffer. -/
theorem iterLoop_fst_indep {ι V : Type} (f : Nat → ι → (ι → V) → V) :
    ∀ (n t : Nat) (x y y' : ι → V),
      (iterLoop f t n x y).1 = (iterLoop f t n x y').1 := by
  intro n
  cases n with
  | zero => intro t x y y'; rfl
  | succ n => intro t x y y'; rfl

theorem iterLoop_append {ι V : Type} (f : Nat → ι → (ι → V) → V) :
    ∀ (m n t : Nat) (x y : ι → V),
      (iterLoop f t (m + n) x y).1 =
        (iterLoop f (t + m) n (iterLoop f t m x y).1 y).1 := by
  intro m
  induction m with
  | zero =>
    intro n t x y
    simp [iterLoop]
  | succ m ih =>
    intro n t x y
    have hn : m + 1 + n = (m + n) + 1 := by omega
    rw [hn, iterLoop_succ, iterLoop_succ, ih]
    have ht : t + 1 + m = t + (m + 1) := by omega
    rw [ht]
    exact iterLoop_fst_indep f n (t + (m + 1)) _ _ _

theorem iterLoop_shift {ι V : Type} (f : Nat → ι → (ι → V) → V) (c : Nat) :
    ∀ (n t : Nat) (x y : ι → V),
      iterLoop (fun t p v => f (t + c) p v) t n x y = iterLoop f (t + c) n x y := by
  intro n
  induction n with
  | zero => intro t x y; rfl
  | succ n ih =>
    intro t x y
    rw [iterLoop_succ, iterLoop_succ, ih]
    have ht : t + 1 + c = t + c + 1 := by omega
    rw [ht]

/-- Claim C9: running the stencil for `T1 + T2` steps equals running it
for `T1` steps and then for `T2` further steps with the time-shifted
update `f'(t, p, V) = f(t + T1, p, V)` (stated on the iterative
double-buffer model cited by the claim; `b0`, `b1` are the indeterminate
initial shadow buffers of the two runs). -/
theorem c9_composition {ι V : Type} (a b0 b1 : ι → V) (T1 T2 : Int)
    (f : Nat → ι → (ι → V) → V) (h1 : 0 ≤ T1) (h2 : 0 ≤ T2) :
    seqIterProcess a b0 (T1 + T2) f =
      seqIterProcess (seqIterProcess a b0 T1 f) b1 T2
        (fun t p v => f (t + T1.toNat) p v) := by
  unfold seqIterProcess
  have hT : (T1 + T2).toNat = T1.toNat + T2.toNat := by omega
  rw [hT, iterLoop_append f T1.toNat T2.toNat 0 a b0, iterLoop_shift]
  exact iterLoop_fst_indep f T2.toNat (0 + T1.toNat) _ _ _

theorem c9_composition_witness :
    seqIterProcess (fun i : Fin 3 => (i : Int)) (fun _ => 0) (2 + 3)
        (fun t p v => v p * 2 + (t : Int)) =
      seqIterProcess
        (seqIterProcess (fun i : Fin 3 => (i : Int)) (fun _ => 0) 2
          (fun t p v => v p * 2 + (t : Int)))
        (fun _ => 1) 3
        (fun t p v => v p * 2 + ((t + (2 : Int).toNat : Nat) : Int)) :=
  c9_composition _ _ _ 2 3 _ (by decide) (by decide)

theorem flatMap_singleton {α β : Type} (l : List α) (g : α → β) :
    l.flatMap (fun v => [g v]) = l.map g := by
  induction l with
  | nil => rfl
  | cons x xs ih => simp [List.flatMap_cons, ih]

theorem scanCells_single (r : Rg) (L : Int) :
    scanCells [r] [L] = (scanRow r L).map (fun v => [v]) := by
  show (scanRow r L).flatMap (fun v => (scanCells [] []).map (fun c => v :: c)) = _
  show (scanRow r L).flatMap (fun v => [[v]]) = _
  exact flatMap_singleton _ _

/-- Claim C5 counterexample: at extent `L = 3` the plain scanner on the
base `[L-2, L+3) = [1, 6)` visits the cells `1` and `2` twice (the base
is wider than the extent), so they are not visited exactly once. -/
theorem c5_counterexample :
    scanCells [⟨(3 : Int) - 2, 3 + 3⟩] [3] = [[1], [2], [0], [1], [2]] ∧
    cnt [(1 : Int)] (scanCells [⟨(3 : Int) - 2, 3 + 3⟩] [3]) = 2 := by decide

/-- Claim C5 (amended: `L ≥ 5` instead of `L ≥ 3`; the wrapped tail
sub-range is `[0, 3)`): scanning one time row of the base `[L-2, L+3)`
against limit `L` visits exactly `L-2, L-1, 0, 1, 2`, each exactly once,
the range wrapping into the sub-ranges `[L-2, L)` and `[0, 3)`. -/
theorem c5_wraparound (L : Int) (hL : 5 ≤ L) :
    scanCells [⟨L - 2, L + 3⟩] [L] = [[L - 2], [L - 1], [0], [1], [2]] ∧
    ([[L - 2], [L - 1], [0], [1], [2]] : List (List Int)).Nodup := by
  constructor
  · rw [scanCells_single]
    have h1 : scanRow ⟨L - 2, L + 3⟩ L = [L - 2, L - 1, 0, 1, 2] := by
      unfold scanRow
      simp only
      rw [if_neg (by omega : ¬ L < L - 2), if_neg (by omega : ¬ L < L - 2)]
      rw [if_neg (by omega : ¬ L + 3 ≤ L)]
      have hmin : min (L + 3) L = L := by omega
      rw [hmin]
      have h2 : intRange (L - 2) L = [L - 2, L - 1] := by
        rw [intRange_cons (by omega), intRange_cons (by omega), intRange_nil (by omega)]
        simp only [List.cons.injEq, and_true]
        exact ⟨trivial, by omega⟩
      have h3 : L + 3 - L = 3 := by ring
      rw [h2, h3]
      have h4 : intRange 0 3 = [0, 1, 2] := by decide
      rw [h4]
      rfl
    rw [h1]
    rfl
  · simp only [List.nodup_cons, List.mem_cons, List.mem_singleton, List.not_mem_nil,
      or_false, List.nodup_nil, and_true, List.cons.injEq]
    refine ⟨?_, ?_, ?_, ?_⟩ <;> simp <;> omega

theorem c5_wraparound_witness :
    scanCells [⟨(7 : Int) - 2, 7 + 3⟩] [7]
        = [[(7 : Int) - 2], [7 - 1], [0], [1], [2]] ∧
    ([[(7 : Int) - 2], [7 - 1], [0], [1], [2]] : List (List Int)).Nodup :=
  c5_wraparound 7 (by decide)

theorem getD_set_eq {α : Type} (l : List α) (d : Nat) (v dflt : α)
    (h : d < l.length) : (l.set d v).getD d dflt = v := by
  rw [List.getD_eq_getElem?_getD, List.getElem?_set_self h]
  rfl

theorem getD_set_ne {α : Type} (l : List α) (d j : Nat) (v dflt : α)
    (h : d ≠ j) : (l.set d v).getD j dflt = l.getD j dflt := by
  rw [List.getD_eq_getElem?_getD, List.getElem?_set_ne h,
    ← List.getD_eq_getElem?_getD]

theorem getD_mem {α : Type} (l : List α) (d : Nat) (dflt : α)
    (h : d < l.length) : l.getD d dflt ∈ l := by
  rw [List.getD_eq_getElem?_getD, List.getElem?_eq_getElem h]
  exact List.getElem_mem h

/-- Specification of the running-maximum loop selecting the split
dimension: the result dominates every scanned projected width and the
accumulator, and is either the accumulator itself or a scanned dimension
achieving its projected width. -/
theorem splitDimAux_spec (z : Zoid) :
    ∀ (l : List Nat) (acc : Nat × Int),
      (∀ i ∈ l, projWidth z i ≤ (splitDimAux z l acc).2) ∧
      acc.2 ≤ (splitDimAux z l acc).2 ∧
      (splitDimAux z l acc = acc ∨
        ((splitDimAux z l acc).1 ∈ l ∧
          projWidth z (splitDimAux z l acc).1 = (splitDimAux z l acc).2)) := by
  intro l
  induction l with
  | nil =>
    intro acc
    exact ⟨by simp, le_refl _, Or.inl rfl⟩
  | cons i is ih =>
    intro acc
    simp only [splitDimAux]
    by_cases hgt : projWidth z i > acc.2
    · rw [if_pos hgt]
      obtain ⟨h1, h2, h3⟩ := ih (i, projWidth z i)
      refine ⟨?_, le_trans (le_of_lt hgt) h2, ?_⟩
      · intro j hj
        rcases List.mem_cons.mp hj with hj | hj
        · subst hj; exact h2
        · exact h1 j hj
      · rcases h3 with h3 | h3
        · right
          rw [h3]
          exact ⟨List.mem_cons_self i is, rfl⟩
        · exact Or.inr ⟨List.mem_cons_of_mem i h3.1, h3.2⟩
    · rw [if_neg hgt]
      obtain ⟨h1, h2, h3⟩ := ih acc
      refine ⟨?_, h2, ?_⟩
      · intro j hj
        rcases List.mem_cons.mp hj with hj | hj
        · subst hj; omega
        · exact h1 j hj
      · rcases h3 with h3 | h3
        · exact Or.inl h3
        · exact Or.inr ⟨List.mem_cons_of_mem i h3.1, h3.2⟩

/-- For a space-splitable zoid the selected split dimension is in range,
dominates every projected width, and is itself splitable. -/
theorem splitDim_spec (z : Zoid) (h : isSpaceSplitable z = true) :
    splitDim z < z.base.length ∧
    (∀ j, j < z.base.length → projWidth z j ≤ projWidth z (splitDim z)) ∧
    4 * (getHeight z : Int) < projWidth z (splitDim z) := by
  obtain ⟨j, hj, hsplit⟩ := List.any_eq_true.mp h
  have hjlt : j < z.base.length := List.mem_range.mp hj
  have hjs : 4 * (getHeight z : Int) < projWidth z j := by
    have := of_decide_eq_true hsplit
    simpa [isSplitableAt] using this
  obtain ⟨h1, h2, h3⟩ := splitDimAux_spec z (List.range z.base.length) (0, 0)
  have hle : projWidth z j ≤ (splitDimAux z (List.range z.base.length) (0, 0)).2 :=
    h1 j hj
  have hpos : 0 < (splitDimAux z (List.range z.base.length) (0, 0)).2 := by
    have hh : (0 : Int) ≤ 4 * (getHeight z : Int) := by positivity
    omega
  rcases h3 with h3 | h3
  · rw [h3] at hpos
    simp at hpos
  · refine ⟨List.mem_range.mp h3.1, ?_, ?_⟩
    · intro k hk
      have := h1 k (List.mem_range.mpr hk)
      unfold splitDim
      omega
    · unfold splitDim
      omega

/-- Claim C7: `splitSpace` on the chosen dimension `d` computes
`center = (b_d + e_d)/2`, then `left = center - height`,
`right = center + height` for slope `-1` and `left = right = center` for
slope `+1`; it returns `l` with `e_d = left`, `c` with range
`[left, right)` and negated slope, `r` with `b_d = right`, and the
opening flag `(slopes_d = -1)`; all other fields are unchanged
(`specSplitSpace` states exactly these formulas). -/
theorem c7_split_space_formulas (z : Zoid)
    (hlen : z.slopes.length = z.base.length)
    (hsl : ∀ s ∈ z.slopes, s = 1 ∨ s = -1)
    (hsp : isSpaceSplitable z = true) :
    splitSpace z = specSplitSpace z := by
  have hdlt : splitDim z < z.base.length := (splitDim_spec z hsp).1
  have hmem : z.slopes.getD (splitDim z) 0 ∈ z.slopes :=
    getD_mem _ _ _ (by omega)
  simp only [splitSpace, specSplitSpace]
  rcases hsl _ hmem with hs | hs <;> rw [hs] <;> norm_num

theorem c7_split_space_formulas_witness :
    splitSpace ⟨[⟨0, 10⟩], [-1], 0, 2⟩ = specSplitSpace ⟨[⟨0, 10⟩], [-1], 0, 2⟩ :=
  c7_split_space_formulas _ (by decide) (by decide) (by decide)

/-- Truncating halving differs from the exact half by at most one. -/
theorem tdiv_two_bounds (x : Int) :
    x - 1 ≤ 2 * Int.tdiv x 2 ∧ 2 * Int.tdiv x 2 ≤ x + 1 := by
  rcases le_or_lt 0 x with hx | hx
  · rw [Int.tdiv_eq_ediv hx (by norm_num)]
    omega
  · have hneg : x = -(-x) := by ring
    rw [hneg, Int.neg_tdiv, Int.tdiv_eq_ediv (by omega) (by norm_num)]
    omega

/-- Truncating halving of a nonnegative value equals Euclidean halving. -/
theorem tdiv_two_nonneg (x : Int) (hx : 0 ≤ x) : Int.tdiv x 2 = x / 2 :=
  Int.tdiv_eq_ediv hx (by norm_num)

theorem foldl_max_spec : ∀ (l : List Int) (a : Int),
    (l.foldl max a = a ∨ l.foldl max a ∈ l) ∧ a ≤ l.foldl max a := by
  intro l
  induction l with
  | nil => intro a; exact ⟨Or.inl rfl, le_refl a⟩
  | cons x xs ih =>
    intro a
    simp only [List.foldl_cons]
    obtain ⟨h1, h2⟩ := ih (max a x)
    constructor
    · rcases h1 with h1 | h1
      · rcases max_choice a x with hm | hm
        · rw [h1, hm]; exact Or.inl rfl
        · rw [h1, hm]; exact Or.inr (List.mem_cons_self x xs)
      · exact Or.inr (List.mem_cons_of_mem x h1)
    · exact le_trans (le_max_left a x) h2

/-- The maximum base width is attained at some dimension. -/
theorem maxBaseWidth_exists (z : Zoid) (hne : z.base ≠ []) :
    ∃ j, j < z.base.length ∧ maxBaseWidth z = baseWidth z j := by
  obtain ⟨r, rs, hcons⟩ := List.exists_cons_of_ne_nil hne
  have hmw : maxBaseWidth z = (rs.map rgWidth).foldl max (rgWidth r) := by
    unfold maxBaseWidth
    rw [hcons]
  obtain ⟨h1, _⟩ := foldl_max_spec (rs.map rgWidth) (rgWidth r)
  rcases h1 with h1 | h1
  · refine ⟨0, ?_, ?_⟩
    · rw [hcons]; simp
    · rw [hmw, h1]
      unfold baseWidth
      rw [hcons]
      rfl
  · obtain ⟨v, hv, hveq⟩ := List.mem_map.mp h1
    obtain ⟨i, hi, hieq⟩ := List.getElem_of_mem hv
    refine ⟨i + 1, ?_, ?_⟩
    · rw [hcons]; simpa using by omega
    · rw [hmw]
      unfold baseWidth
      rw [hcons]
      have hg : (r :: rs).getD (i + 1) ⟨0, 0⟩ = rs[i] := by
        rw [List.getD_eq_getElem?_getD]
        simp [List.getElem?_eq_getElem, hi]
      rw [hg, hieq, hveq]

theorem sumProj_lt_of_dim (z F : Zoid) (d : Nat) (hd : d < z.base.length)
    (hlen : F.base.length = z.base.length)
    (hoff : ∀ j, j < z.base.length → j ≠ d → projWidth F j = projWidth z j)
    (hstrict : projWidth F d < projWidth z d) :
    sumProjWidth F < sumProjWidth z := by
  unfold sumProjWidth
  rw [hlen]
  apply Finset.sum_lt_sum
  · intro i hi
    by_cases hid : i = d
    · subst hid; exact le_of_lt hstrict
    · rw [hoff i (Finset.mem_range.mp hi) hid]
  · exact ⟨d, Finset.mem_range.mpr hd, hstrict⟩

/-- Projected width after replacing only the base. -/
theorem projWidth_withBase (z : Zoid) (b : List Rg) (j : Nat) :
    projWidth { z with base := b } j
      = rgWidth (b.getD j ⟨0, 0⟩)
        + (if z.slopes.getD j 0 < 0 then 2 * (getHeight z : Int) else 0) := rfl

/-- Projected width after replacing base and slopes. -/
theorem projWidth_withBaseSlopes (z : Zoid) (b : List Rg) (s : List Int)
    (j : Nat) :
    projWidth { z with base := b, slopes := s } j
      = rgWidth (b.getD j ⟨0, 0⟩)
        + (if s.getD j 0 < 0 then 2 * (getHeight z : Int) else 0) := rfl

/-- Unfolding of the projected width in terms of the base range. -/
theorem projWidth_eq (z : Zoid) (j : Nat) :
    projWidth z j
      = (z.base.getD j ⟨0, 0⟩).hi - (z.base.getD j ⟨0, 0⟩).lo
        + (if z.slopes.getD j 0 < 0 then 2 * (getHeight z : Int) else 0) := rfl

/-- For a non-terminal space-splitable zoid the selected split dimension
has base width at least 3. -/
theorem splitDim_width3 (z : Zoid) (hnt : isTerminal z = false)
    (hsp : isSpaceSplitable z = true) :
    3 ≤ baseWidth z (splitDim z) := by
  obtain ⟨hd, hdom, hgt4⟩ := splitDim_spec z hsp
  by_cases hh : getHeight z = 0
  · have hmb : 3 ≤ maxBaseWidth z := by
      have h1 := hnt
      simp only [isTerminal, Bool.and_eq_false_iff, decide_eq_false_iff_not,
        not_le, not_lt] at h1
      rcases h1 with h1 | h1
      · omega
      · exact h1
    obtain ⟨j, hj, hjeq⟩ := maxBaseWidth_exists z
      (by intro hb; rw [hb] at hd; simp at hd)
    have h1 : projWidth z j ≤ projWidth z (splitDim z) := hdom j hj
    have h2 : projWidth z j = baseWidth z j := by
      unfold projWidth
      rw [hh]
      simp
    have h3 : projWidth z (splitDim z) = baseWidth z (splitDim z) := by
      unfold projWidth
      rw [hh]
      simp
    omega
  · have hh1 : 1 ≤ (getHeight z : Int) := by
      have h2 : 1 ≤ getHeight z := by omega
      exact_mod_cast h2
    by_cases hsd : z.slopes.getD (splitDim z) 0 < 0
    · have h1 : projWidth z (splitDim z)
          = baseWidth z (splitDim z) + 2 * (getHeight z : Int) := by
        unfold projWidth
        rw [if_pos hsd]
      omega
    · have h1 : projWidth z (splitDim z) = baseWidth z (splitDim z) := by
        unfold projWidth
        rw [if_neg hsd]
        ring
      omega

/-- For a non-terminal space-splitable zoid all three `splitSpace`
fragments are strictly smaller in the lexicographic order on
(height, total projected width): the heights are unchanged and the
projected width strictly shrinks in the split dimension only. -/
theorem splitSpace_lex (z : Zoid) (hlen : z.slopes.length = z.base.length)
    (hnt : isTerminal z = false) (hsp : isSpaceSplitable z = true) :
    lexSmaller (splitSpace z).l z ∧ lexSmaller (splitSpace z).c z ∧
      lexSmaller (splitSpace z).r z := by
  obtain ⟨hd, hdom, hgt4⟩ := splitDim_spec z hsp
  have hds : splitDim z < z.slopes.length := by omega
  have hw3 : 3 ≤ baseWidth z (splitDim z) := splitDim_width3 z hnt hsp
  obtain ⟨ht1, ht2⟩ := tdiv_two_bounds
    ((z.base.getD (splitDim z) ⟨0, 0⟩).lo + (z.base.getD (splitDim z) ⟨0, 0⟩).hi)
  have hwdef : baseWidth z (splitDim z)
      = (z.base.getD (splitDim z) ⟨0, 0⟩).hi
        - (z.base.getD (splitDim z) ⟨0, 0⟩).lo := rfl
  rw [projWidth_eq] at hgt4
  refine ⟨Or.inr ⟨rfl, ?_⟩, Or.inr ⟨rfl, ?_⟩, Or.inr ⟨rfl, ?_⟩⟩
  · refine sumProj_lt_of_dim z _ (splitDim z) hd (by simp [splitSpace]) ?_ ?_
    · intro j hj hjd
      show projWidth { z with base := _ } j = _
      rw [projWidth_withBase, getD_set_ne _ _ _ _ _ (fun h => hjd h.symm)]
      rfl
    · show projWidth { z with base := _ } (splitDim z) < _
      rw [projWidth_withBase, getD_set_eq _ _ _ _ hd, projWidth_eq]
      simp only [rgWidth]
      split_ifs <;> omega
  · refine sumProj_lt_of_dim z _ (splitDim z) hd (by simp [splitSpace]) ?_ ?_
    · intro j hj hjd
      show projWidth { z with base := _, slopes := _ } j = _
      rw [projWidth_withBaseSlopes, getD_set_ne _ _ _ _ _ (fun h => hjd h.symm),
        getD_set_ne _ _ _ _ _ (fun h => hjd h.symm)]
      rfl
    · show projWidth { z with base := _, slopes := _ } (splitDim z) < _
      rw [projWidth_withBaseSlopes, getD_set_eq _ _ _ _ hd,
        getD_set_eq _ _ _ _ hds, projWidth_eq]
      simp only [rgWidth]
      split_ifs at hgt4 ⊢ <;> omega
  · refine sumProj_lt_of_dim z _ (splitDim z) hd (by simp [splitSpace]) ?_ ?_
    · intro j hj hjd
      show projWidth { z with base := _ } j = _
      rw [projWidth_withBase, getD_set_ne _ _ _ _ _ (fun h => hjd h.symm)]
      rfl
    · show projWidth { z with base := _ } (splitDim z) < _
      rw [projWidth_withBase, getD_set_eq _ _ _ _ hd, projWidth_eq]
      simp only [rgWidth]
      split_ifs at hgt4 ⊢ <;> omega

/-- Claim C3 counterexample.  First part: the 1-D zoid with base `[0, 3)`,
slope `+1`, times `[0, 1)` is non-terminal (width `3`), not
space-splitable (projected width `3` is not `> 4`), and `splitTime`
(with `split = height/2 = 0`) returns the zoid itself as its top part —
not strictly smaller in any order, so the recursion does not terminate.
Second part: the 2-D zoid `zoidB` is split in dimension 0, but its `l`
fragment keeps both the height and the maximum base width (carried by
dimension 1), so the split is not strictly decreasing in the claimed
lexicographic order on (height, maximum width). -/
theorem c3_counterexample :
    (isTerminal zoidA = false ∧ isSpaceSplitable zoidA = false ∧
      (splitTime zoidA).top = zoidA) ∧
    (isTerminal zoidB = false ∧ isSpaceSplitable zoidB = true ∧
      getHeight (splitSpace zoidB).l = getHeight zoidB ∧
      maxBaseWidth (splitSpace zoidB).l = maxBaseWidth zoidB) := by
  decide

/-- Claim C3 (amended): for every non-terminal zoid that is
space-splitable or has height at least 2, the split the recursive
scheduler applies (`splitTime` when not space-splitable, `splitSpace`
otherwise) produces only sub-zoids strictly smaller in the lexicographic
order on (height, total projected width); non-terminal zoids of height
at most 1 that are not space-splitable reproduce themselves under
`splitTime`, so the recursion is not well-founded on those. -/
theorem c3_split_decreases (z : Zoid) (hlen : z.slopes.length = z.base.length)
    (hnt : isTerminal z = false)
    (hok : isSpaceSplitable z = true ∨ 2 ≤ getHeight z) :
    if isSpaceSplitable z = true then
      lexSmaller (splitSpace z).l z ∧ lexSmaller (splitSpace z).c z ∧
        lexSmaller (splitSpace z).r z
    else
      lexSmaller (splitTime z).bottom z ∧ lexSmaller (splitTime z).top z := by
  by_cases hsp : isSpaceSplitable z = true
  · rw [if_pos hsp]
    exact splitSpace_lex z hlen hnt hsp
  · rw [if_neg hsp]
    have hh : 2 ≤ getHeight z := by
      rcases hok with hok | hok
      · exact absurd hok hsp
      · exact hok
    constructor
    · left
      show z.tBegin + getHeight z / 2 - z.tBegin < getHeight z
      unfold getHeight at hh ⊢
      omega
    · left
      show z.tEnd - (z.tBegin + getHeight z / 2) < getHeight z
      unfold getHeight at hh ⊢
      omega

theorem c3_split_decreases_witness :
    if isSpaceSplitable ⟨[⟨0, 20⟩], [1], 0, 2⟩ = true then
      lexSmaller (splitSpace ⟨[⟨0, 20⟩], [1], 0, 2⟩).l ⟨[⟨0, 20⟩], [1], 0, 2⟩ ∧
        lexSmaller (splitSpace ⟨[⟨0, 20⟩], [1], 0, 2⟩).c ⟨[⟨0, 20⟩], [1], 0, 2⟩ ∧
          lexSmaller (splitSpace ⟨[⟨0, 20⟩], [1], 0, 2⟩).r ⟨[⟨0, 20⟩], [1], 0, 2⟩
    else
      lexSmaller (splitTime ⟨[⟨0, 20⟩], [1], 0, 2⟩).bottom ⟨[⟨0, 20⟩], [1], 0, 2⟩ ∧
        lexSmaller (splitTime ⟨[⟨0, 20⟩], [1], 0, 2⟩).top ⟨[⟨0, 20⟩], [1], 0, 2⟩ :=
  c3_split_decreases _ (by decide) (by decide) (Or.inl (by decide))

theorem maskBase_eq_specBase (w : Int) :
    ∀ (exts : List Int) (m : Nat),
      maskBase m (splitsOf exts w) = specBase exts w m := by
  intro exts
  induction exts with
  | nil => intro m; rfl
  | cons L Ls ih =>
    intro m
    show (if m.testBit 0 then Rg.mk (L - Int.tdiv (L - w) 2) L
          else Rg.mk 0 (L - Int.tdiv (L - w) 2))
        :: maskBase (m / 2) (splitsOf Ls w) = _
    rw [ih (m / 2)]
    unfold specBase
    rw [List.length_cons, List.range_succ_eq_map, List.map_cons, List.map_map]
    simp only [List.getD_cons_zero, List.cons.injEq]
    refine ⟨by trivial, ?_⟩
    apply List.map_congr_left
    intro i _
    simp only [Function.comp_apply, Nat.succ_eq_add_one, Nat.testBit_succ,
      List.getD_cons_succ]

theorem maskSlopes_eq_specSlopes (w : Int) :
    ∀ (exts : List Int) (m : Nat),
      maskSlopes m (splitsOf exts w) = specSlopes exts m := by
  intro exts
  induction exts with
  | nil => intro m; rfl
  | cons L Ls ih =>
    intro m
    show (if m.testBit 0 then (-1 : Int) else 1)
        :: maskSlopes (m / 2) (splitsOf Ls w) = _
    rw [ih (m / 2)]
    unfold specSlopes
    rw [List.length_cons, List.range_succ_eq_map, List.map_cons, List.map_map]
    simp only [List.cons.injEq]
    refine ⟨by trivial, ?_⟩
    apply List.map_congr_left
    intro i _
    simp only [Function.comp_apply, Nat.succ_eq_add_one, Nat.testBit_succ]

theorem length_splitsOf (exts : List Int) (w : Int) :
    (splitsOf exts w).length = exts.length := by
  unfold splitsOf
  exact List.length_map _ _

theorem mkLayer_eq_specLayer (exts : List Int) (w : Int) (t0 t1 : Nat) :
    mkLayer (splitsOf exts w) t0 t1 = specLayer exts w t0 t1 := by
  unfold mkLayer specLayer
  rw [length_splitsOf]
  apply List.map_congr_left
  intro m _
  rw [maskBase_eq_specBase, maskSlopes_eq_specSlopes]

theorem specLayersF_succ (exts : List Int) (w : Int) (h fuel steps t0 : Nat) :
    specLayersF exts w h (fuel + 1) steps t0 =
      if steps ≤ t0 then []
      else specLayer exts w t0 (min (t0 + h) steps)
        :: specLayersF exts w h fuel steps (t0 + h) := rfl

theorem createLoopF_eq_spec (exts : List Int) (w : Int) (h steps : Nat)
    (hh : 1 ≤ h) :
    ∀ (fuel t0 : Nat), steps ≤ t0 + fuel →
      createLoopF (splitsOf exts w) h steps fuel t0 =
        some (specLayersF exts w h fuel steps t0) := by
  intro fuel
  induction fuel with
  | zero =>
    intro t0 hf
    rw [createLoopF_unfold, if_pos (by omega)]
    rfl
  | succ n ih =>
    intro t0 hf
    rw [createLoopF_unfold]
    by_cases hg : steps ≤ t0
    · rw [if_pos hg, specLayersF_succ, if_pos hg]
    · rw [if_neg hg]
      show Option.map
          (fun rest => mkLayer (splitsOf exts w) t0 (min (t0 + h) steps) :: rest)
          (createLoopF (splitsOf exts w) h steps n (t0 + h)) = _
      rw [ih (t0 + h) (by omega), mkLayer_eq_specLayer, specLayersF_succ,
        if_neg hg]
      rfl

/-- Claim C8: for a base of minimum width at least 2 (so that plan
creation terminates), `ExecutionPlan::create` produces exactly the
layers described by the spec: layer height `min_width/2`, per-dimension
split point `mid_i = extent_i - (extent_i - width)/2` with
`left_i = [0, mid_i)` and `right_i = [mid_i, extent_i)`, one layer per
time interval `[t0, min(t0 + height, steps))` until `[0, steps)` is
covered, each layer holding `2^N` zoids indexed by bitmask with
`right_i`/slope `-1` on set bits and `left_i`/slope `+1` on clear
bits. -/
theorem c8_create_matches_spec (extents : List Int) (steps : Int)
    (hw : 2 ≤ minWidth extents) :
    createOpt extents steps = some (createPlanSpec extents steps.toNat) := by
  have hh : 1 ≤ planHeight extents := by
    unfold planHeight
    rw [tdiv_two_nonneg _ (by omega)]
    omega
  unfold createOpt createPlanSpec
  exact createLoopF_eq_spec extents (minWidth extents) (planHeight extents)
    steps.toNat hh steps.toNat 0 (by omega)

theorem c8_create_matches_spec_witness :
    createOpt [4] 2 = some (createPlanSpec [4] (2 : Int).toNat) :=
  c8_create_matches_spec [4] 2 (by decide)

theorem cnt_map_cons_cons (v : Int) (vs : List Int) (w : Int)
    (l : List (List Int)) :
    cnt (v :: vs) (l.map (fun c => w :: c)) = if w = v then cnt vs l else 0 := by
  induction l with
  | nil => simp [cnt]
  | cons c cs ih =>
    simp only [List.map_cons, cnt, ih, List.cons.injEq]
    by_cases hw : w = v
    · simp [hw]
    · simp [hw]

theorem cnt_nil_map_cons (w : Int) (l : List (List Int)) :
    cnt ([] : List Int) (l.map (fun c => w :: c)) = 0 := by
  induction l with
  | nil => rfl
  | cons c cs ih => simp [cnt, ih]

theorem cnt_flatMap {α β : Type} [DecidableEq β] (x : β) (f : α → List β)
    (l : List α) :
    cnt x (l.flatMap f) = (l.map (fun y => cnt x (f y))).sum := by
  induction l with
  | nil => rfl
  | cons y ys ih => simp [List.flatMap_cons, cnt_append, ih]

theorem cnt_map_pair (t0 t : Nat) (p : List Int) (l : List (List Int)) :
    cnt (t, p) (l.map (fun c => (t0, c))) = if t0 = t then cnt p l else 0 := by
  induction l with
  | nil => simp [cnt]
  | cons c cs ih =>
    simp only [List.map_cons, cnt, ih, Prod.mk.injEq]
    by_cases ht : t0 = t
    · by_cases hc : c = p <;> simp [ht, hc]
    · simp [ht]

theorem sum_map_add {α : Type} (l : List α) (F G : α → Nat) :
    (l.map (fun y => F y + G y)).sum = (l.map F).sum + (l.map G).sum := by
  induction l with
  | nil => rfl
  | cons y ys ih => simp [ih]; omega

theorem sum_map_mul_left {α : Type} (l : List α) (c : Nat) (F : α → Nat) :
    (l.map (fun y => c * F y)).sum = c * (l.map F).sum := by
  induction l with
  | nil => simp
  | cons y ys ih => simp [ih]; ring

theorem sum_map_zero {α : Type} (l : List α) :
    (l.map (fun _ => (0 : Nat))).sum = 0 := by
  induction l with
  | nil => rfl
  | cons y ys ih => simp [ih]

theorem sum_map_if_eq (l : List Int) (v : Int) (c : Nat) :
    (l.map (fun y => if y = v then c else 0)).sum = cnt v l * c := by
  induction l with
  | nil => simp [cnt]
  | cons y ys ih =>
    simp only [List.map_cons, List.sum_cons, ih, cnt]
    by_cases hy : y = v
    · simp [hy]; ring
    · simp [hy]

theorem scanRow_no_wrap (a b L : Int) (h1 : ¬ L < a) (h2 : b ≤ L) :
    scanRow ⟨a, b⟩ L = intRange a b := by
  unfold scanRow
  simp only [if_neg h1, if_pos h2]
  rw [min_eq_left h2]

theorem scanRow_wrap (a b L : Int) (h1 : ¬ L < a) (h2 : L ≤ b) :
    scanRow ⟨a, b⟩ L = intRange a L ++ intRange 0 (b - L) := by
  unfold scanRow
  simp only [if_neg h1]
  rw [min_eq_right h2]
  by_cases hb : b ≤ L
  · rw [if_pos hb]
    have hbL : b = L := le_antisymm hb h2
    subst hbL
    rw [sub_self, intRange_nil (le_refl 0), List.append_nil]
  · rw [if_neg hb]

theorem advanceBase_cons (r : Rg) (rs : List Rg) (s : Int) (ss : List Int) :
    advanceBase (r :: rs) (s :: ss)
      = Rg.mk (r.lo + s) (r.hi - s) :: advanceBase rs ss := rfl

theorem advIter_nil (slopes : List Int) :
    ∀ (τ : Nat), advIter τ [] slopes = [] := by
  intro τ
  induction τ with
  | zero => rfl
  | succ n ih =>
    show advIter n (advanceBase [] slopes) slopes = []
    cases slopes <;> exact ih

theorem advIter_cons : ∀ (τ : Nat) (r : Rg) (rs : List Rg) (s : Int)
    (ss : List Int),
    advIter τ (r :: rs) (s :: ss)
      = Rg.mk (r.lo + s * τ) (r.hi - s * τ) :: advIter τ rs ss := by
  intro τ
  induction τ with
  | zero =>
    intro r rs s ss
    show r :: rs = _
    have h0 : advIter 0 rs ss = rs := rfl
    rw [h0]
    simp
  | succ n ih =>
    intro r rs s ss
    show advIter n (advanceBase (r :: rs) (s :: ss)) (s :: ss) = _
    rw [advanceBase_cons, ih]
    simp only [List.cons.injEq]
    refine ⟨?_, rfl⟩
    simp only [Rg.mk.injEq]
    push_cast
    constructor <;> ring

theorem range_two_mul : ∀ (n : Nat),
    (List.range (2 * n)).Perm ((List.range n).flatMap (fun i => [2 * i, 2 * i + 1])) := by
  intro n
  induction n with
  | zero => rfl
  | succ n ih =>
    have h1 : 2 * (n + 1) = (2 * n) + 1 + 1 := by omega
    rw [h1, List.range_succ, List.range_succ, List.range_succ,
      List.flatMap_append]
    have h2 : List.Perm (List.range (2 * n) ++ [2 * n] ++ [2 * n + 1])
        (List.range (2 * n) ++ [2 * n, 2 * n + 1]) := by
      simp
    refine h2.trans ?_
    have h3 : [n].flatMap (fun i => [2 * i, 2 * i + 1]) = [2 * n, 2 * n + 1] := rfl
    rw [h3]
    exact ih.append (List.Perm.refl _)

theorem sum_flatMap_pair {α : Type} (l : List α) (A B : α → Nat) :
    ((l.flatMap (fun i => [A i, B i])).sum = (l.map (fun i => A i + B i)).sum) := by
  induction l with
  | nil => rfl
  | cons y ys ih => simp [List.flatMap_cons, ih]; omega

/-- Reindexing a sum over all bitmasks below `2^(n+1)` by the lowest bit. -/
theorem sum_masks_split (n : Nat) (F : Nat → Nat) :
    ((List.range (2 ^ (n + 1))).map F).sum
      = ((List.range (2 ^ n)).map (fun m => F (2 * m) + F (2 * m + 1))).sum := by
  have h1 : 2 ^ (n + 1) = 2 * 2 ^ n := by rw [pow_succ]; ring
  rw [h1]
  have h2 := (range_two_mul (2 ^ n)).map F
  rw [h2.sum_eq, List.map_flatMap]
  exact sum_flatMap_pair _ _ _

theorem cnt_scanCells_cons (r : Rg) (rs : List Rg) (l : Int) (ls : List Int)
    (v : Int) (vs : List Int) :
    cnt (v :: vs) (scanCells (r :: rs) (l :: ls))
      = cnt v (scanRow r l) * cnt vs (scanCells rs ls) := by
  show cnt (v :: vs)
      ((scanRow r l).flatMap (fun x => (scanCells rs ls).map (fun c => x :: c))) = _
  rw [cnt_flatMap]
  have h1 : ∀ x : Int,
      cnt (v :: vs) ((scanCells rs ls).map (fun c => x :: c))
        = if x = v then cnt vs (scanCells rs ls) else 0 :=
    fun x => cnt_map_cons_cons v vs x _
  rw [List.map_congr_left (fun x _ => h1 x)]
  exact sum_map_if_eq _ _ _

theorem cnt_nil_scanCells_cons (r : Rg) (rs : List Rg) (l : Int)
    (ls : List Int) :
    cnt ([] : List Int) (scanCells (r :: rs) (l :: ls)) = 0 := by
  show cnt ([] : List Int)
      ((scanRow r l).flatMap (fun x => (scanCells rs ls).map (fun c => x :: c))) = 0
  rw [cnt_flatMap]
  have h1 : ∀ x : Int,
      cnt ([] : List Int) ((scanCells rs ls).map (fun c => x :: c)) = 0 :=
    fun x => cnt_nil_map_cons x _
  rw [List.map_congr_left (fun x _ => h1 x)]
  exact sum_map_zero _

/-- Exact single coverage of one dimension by the pair of advanced split
ranges: at relative time `τ`, the closing left range `[τ, mid - τ)` and
the opening right range `[mid - τ, L + τ)` (wrapped against `L`)
together visit every cell of `[0, L)` exactly once. -/
theorem dim_cover (L w : Int) (τ : Nat) (v : Int)
    (hwL : w ≤ L) (hw : 2 ≤ w) (hτ : 2 * (τ : Int) + 2 ≤ w) :
    cnt v (scanRow ⟨(τ : Int), (L - Int.tdiv (L - w) 2) - τ⟩ L)
      + cnt v (scanRow ⟨(L - Int.tdiv (L - w) 2) - τ, L + τ⟩ L)
    = if 0 ≤ v ∧ v < L then 1 else 0 := by
  obtain ⟨hd1, hd2⟩ := tdiv_two_bounds (L - w)
  have hτ0 : (0 : Int) ≤ (τ : Int) := by positivity
  rw [scanRow_no_wrap _ _ _ (by omega) (by omega),
    scanRow_wrap _ _ _ (by omega) (by omega)]
  rw [cnt_append, cnt_intRange, cnt_intRange, cnt_intRange]
  have he : L + (τ : Int) - L = τ := by ring
  rw [he]
  split_ifs <;> omega

theorem maskBase_two_mul (m : Nat) (q : Rg × Rg) (qs : List (Rg × Rg)) :
    maskBase (2 * m) (q :: qs) = q.1 :: maskBase m qs := by
  show (if (2 * m).testBit 0 then q.2 else q.1) :: maskBase (2 * m / 2) qs = _
  have h1 : (2 * m).testBit 0 = false := by
    rw [Nat.testBit_zero]
    simp [Nat.mul_mod_right]
  have h2 : 2 * m / 2 = m := by omega
  rw [h1, h2]
  rfl

theorem maskBase_two_mul_add (m : Nat) (q : Rg × Rg) (qs : List (Rg × Rg)) :
    maskBase (2 * m + 1) (q :: qs) = q.2 :: maskBase m qs := by
  show (if (2 * m + 1).testBit 0 then q.2 else q.1)
      :: maskBase ((2 * m + 1) / 2) qs = _
  have h1 : (2 * m + 1).testBit 0 = true := by
    rw [Nat.testBit_zero]
    simp [Nat.add_mul_mod_self_left, Nat.mul_add_mod]
  have h2 : (2 * m + 1) / 2 = m := by omega
  rw [h1, h2]
  rfl

theorem maskSlopes_two_mul (m : Nat) (q : Rg × Rg) (qs : List (Rg × Rg)) :
    maskSlopes (2 * m) (q :: qs) = 1 :: maskSlopes m qs := by
  show (if (2 * m).testBit 0 then (-1 : Int) else 1)
      :: maskSlopes (2 * m / 2) qs = _
  have h1 : (2 * m).testBit 0 = false := by
    rw [Nat.testBit_zero]
    simp [Nat.mul_mod_right]
  have h2 : 2 * m / 2 = m := by omega
  rw [h1, h2]
  rfl

theorem maskSlopes_two_mul_add (m : Nat) (q : Rg × Rg) (qs : List (Rg × Rg)) :
    maskSlopes (2 * m + 1) (q :: qs) = -1 :: maskSlopes m qs := by
  show (if (2 * m + 1).testBit 0 then (-1 : Int) else 1)
      :: maskSlopes ((2 * m + 1) / 2) qs = _
  have h1 : (2 * m + 1).testBit 0 = true := by
    rw [Nat.testBit_zero]
    simp [Nat.mul_add_mod]
  have h2 : (2 * m + 1) / 2 = m := by omega
  rw [h1, h2]
  rfl

/-- Exact single coverage of the whole grid by the `2^N` zoids of one
layer at one relative time `τ`: summed over all bitmasks, each
coordinate inside the grid is visited exactly once and nothing else is
visited. -/
theorem mask_sum (w : Int) (τ : Nat) :
    ∀ (exts : List Int) (p : List Int),
      (∀ L ∈ exts, w ≤ L) → 2 ≤ w → 2 * (τ : Int) + 2 ≤ w →
      ((List.range (2 ^ exts.length)).map
        (fun m => cnt p (scanCells
          (advIter τ (maskBase m (splitsOf exts w))
            (maskSlopes m (splitsOf exts w))) exts))).sum
      = if inCell p exts = true then 1 else 0 := by
  intro exts
  induction exts with
  | nil =>
    intro p _ _ _
    have h0 : (2 : Nat) ^ ([] : List Int).length = 1 := rfl
    rw [h0]
    show cnt p (scanCells (advIter τ [] []) []) + 0 = _
    rw [advIter_nil]
    cases p with
    | nil => simp [scanCells, cnt, inCell]
    | cons v vs => simp [scanCells, cnt, inCell]
  | cons L Ls ih =>
    intro p hall hw hτw
    have hLw : w ≤ L := hall L (List.mem_cons_self _ _)
    have hlc : (L :: Ls).length = Ls.length + 1 := rfl
    rw [hlc, sum_masks_split]
    have hsplits : splitsOf (L :: Ls) w
        = (Rg.mk 0 (L - Int.tdiv (L - w) 2),
            Rg.mk (L - Int.tdiv (L - w) 2) L) :: splitsOf Ls w := rfl
    cases p with
    | nil =>
      have hz : ∀ m : Nat, m ∈ List.range (2 ^ Ls.length) →
          cnt ([] : List Int) (scanCells
            (advIter τ (maskBase (2 * m) (splitsOf (L :: Ls) w))
              (maskSlopes (2 * m) (splitsOf (L :: Ls) w))) (L :: Ls))
          + cnt ([] : List Int) (scanCells
            (advIter τ (maskBase (2 * m + 1) (splitsOf (L :: Ls) w))
              (maskSlopes (2 * m + 1) (splitsOf (L :: Ls) w))) (L :: Ls))
          = 0 := by
        intro m _
        rw [hsplits, maskBase_two_mul, maskSlopes_two_mul,
          maskBase_two_mul_add, maskSlopes_two_mul_add,
          advIter_cons, advIter_cons,
          cnt_nil_scanCells_cons, cnt_nil_scanCells_cons]
      rw [List.map_congr_left hz, sum_map_zero]
      have hc : inCell ([] : List Int) (L :: Ls) = false := rfl
      rw [hc]
      simp
    | cons v vs =>
      have hterm : ∀ m : Nat, m ∈ List.range (2 ^ Ls.length) →
          (cnt (v :: vs) (scanCells
            (advIter τ (maskBase (2 * m) (splitsOf (L :: Ls) w))
              (maskSlopes (2 * m) (splitsOf (L :: Ls) w))) (L :: Ls))
          + cnt (v :: vs) (scanCells
            (advIter τ (maskBase (2 * m + 1) (splitsOf (L :: Ls) w))
              (maskSlopes (2 * m + 1) (splitsOf (L :: Ls) w))) (L :: Ls)))
          = (cnt v (scanRow ⟨(τ : Int), (L - Int.tdiv (L - w) 2) - τ⟩ L)
              + cnt v (scanRow ⟨(L - Int.tdiv (L - w) 2) - τ, L + τ⟩ L))
            * cnt vs (scanCells
              (advIter τ (maskBase m (splitsOf Ls w))
                (maskSlopes m (splitsOf Ls w))) Ls) := by
        intro m _
        rw [hsplits, maskBase_two_mul, maskSlopes_two_mul,
          maskBase_two_mul_add, maskSlopes_two_mul_add,
          advIter_cons, advIter_cons,
          cnt_scanCells_cons, cnt_scanCells_cons]
        have e1 : Rg.mk ((0 : Int) + 1 * (τ : Int))
            ((L - Int.tdiv (L - w) 2) - 1 * (τ : Int))
            = Rg.mk ((τ : Int)) ((L - Int.tdiv (L - w) 2) - (τ : Int)) := by
          simp only [Rg.mk.injEq]
          constructor <;> ring
        have e2 : Rg.mk ((L - Int.tdiv (L - w) 2) + (-1) * (τ : Int))
            (L - (-1) * (τ : Int))
            = Rg.mk ((L - Int.tdiv (L - w) 2) - (τ : Int)) (L + (τ : Int)) := by
          simp only [Rg.mk.injEq]
          constructor <;> ring
        rw [e1, e2]
        ring
      rw [List.map_congr_left hterm]
      have hpull : (List.range (2 ^ Ls.length)).map
          (fun m =>
            (cnt v (scanRow ⟨(τ : Int), (L - Int.tdiv (L - w) 2) - τ⟩ L)
              + cnt v (scanRow ⟨(L - Int.tdiv (L - w) 2) - τ, L + τ⟩ L))
            * cnt vs (scanCells
              (advIter τ (maskBase m (splitsOf Ls w))
                (maskSlopes m (splitsOf Ls w))) Ls))
          = (List.range (2 ^ Ls.length)).map
          (fun m =>
            (cnt v (scanRow ⟨(τ : Int), (L - Int.tdiv (L - w) 2) - τ⟩ L)
              + cnt v (scanRow ⟨(L - Int.tdiv (L - w) 2) - τ, L + τ⟩ L))
            * (fun m => cnt vs (scanCells
              (advIter τ (maskBase m (splitsOf Ls w))
                (maskSlopes m (splitsOf Ls w))) Ls)) m) := rfl
      rw [hpull, sum_map_mul_left, ih vs (fun x hx => hall x (List.mem_cons_of_mem _ hx)) hw hτw,
        dim_cover L w τ v hLw hw hτw]
      have hcell : inCell (v :: vs) (L :: Ls)
          = (decide (0 ≤ v) && decide (v < L) && inCell vs Ls) := rfl
      rw [hcell]
      by_cases hv1 : 0 ≤ v
      · by_cases hv2 : v < L
        · by_cases hvs : inCell vs Ls = true <;>
            simp [hv1, hv2, hvs]
        · simp [hv2]
      · simp [hv1]

theorem cnt_forEachAux (slopes limits : List Int) :
    ∀ (n : Nat) (base : List Rg) (t0 t : Nat) (p : List Int),
      cnt (t, p) (forEachAux slopes limits base t0 n)
        = if t0 ≤ t ∧ t < t0 + n then
            cnt p (scanCells (advIter (t - t0) base slopes) limits)
          else 0 := by
  intro n
  induction n with
  | zero =>
    intro base t0 t p
    show (0 : Nat) = _
    rw [if_neg (by omega)]
  | succ n ih =>
    intro base t0 t p
    show cnt (t, p) ((scanCells base limits).map (fun c => (t0, c))
        ++ forEachAux slopes limits (advanceBase base slopes) (t0 + 1) n) = _
    rw [cnt_append, cnt_map_pair, ih]
    by_cases ht : t0 = t
    · subst ht
      have h1 : ¬ (t0 + 1 ≤ t0 ∧ t0 < t0 + 1 + n) := by omega
      rw [if_pos rfl, if_neg h1, if_pos (by omega)]
      have h2 : t0 - t0 = 0 := by omega
      rw [h2]
      have h3 : advIter 0 base slopes = base := rfl
      rw [h3]
      omega
    · rw [if_neg ht]
      by_cases hin : t0 + 1 ≤ t ∧ t < t0 + 1 + n
      · rw [if_pos hin, if_pos (by omega)]
        have h2 : t - t0 = (t - (t0 + 1)) + 1 := by omega
        rw [h2]
        have h3 : advIter ((t - (t0 + 1)) + 1) base slopes
            = advIter (t - (t0 + 1)) (advanceBase base slopes) slopes := rfl
        rw [h3]
        omega
      · rw [if_neg hin, if_neg (by omega)]

/-- Exact single coverage of the space-time slab `[t0, t1) × grid` by one
layer of the plan. -/
theorem cnt_layer (exts : List Int) (w : Int) (t0 t1 : Nat) (t : Nat)
    (p : List Int)
    (hall : ∀ L ∈ exts, w ≤ L) (hw : 2 ≤ w)
    (ht01 : t0 ≤ t1) (hth : (t1 : Int) ≤ (t0 : Int) + Int.tdiv w 2) :
    cnt (t, p)
        ((mkLayer (splitsOf exts w) t0 t1).flatMap (fun z => forEachCells z exts))
      = if t0 ≤ t ∧ t < t1 ∧ inCell p exts = true then 1 else 0 := by
  unfold mkLayer
  rw [List.flatMap_map, cnt_flatMap]
  have hterm : ∀ m ∈ List.range (2 ^ (splitsOf exts w).length),
      cnt (t, p) (forEachCells
          ⟨maskBase m (splitsOf exts w), maskSlopes m (splitsOf exts w), t0, t1⟩
          exts)
        = if t0 ≤ t ∧ t < t1 then
            cnt p (scanCells
              (advIter (t - t0) (maskBase m (splitsOf exts w))
                (maskSlopes m (splitsOf exts w))) exts)
          else 0 := by
    intro m _
    show cnt (t, p) (forEachAux (maskSlopes m (splitsOf exts w)) exts
        (maskBase m (splitsOf exts w)) t0 (t1 - t0)) = _
    rw [cnt_forEachAux]
    have hiff : (t0 ≤ t ∧ t < t0 + (t1 - t0)) ↔ (t0 ≤ t ∧ t < t1) := by omega
    rw [if_congr hiff rfl rfl]
  rw [List.map_congr_left hterm]
  by_cases hin : t0 ≤ t ∧ t < t1
  · have hpos : ∀ m ∈ List.range (2 ^ (splitsOf exts w).length),
        (if t0 ≤ t ∧ t < t1 then
            cnt p (scanCells
              (advIter (t - t0) (maskBase m (splitsOf exts w))
                (maskSlopes m (splitsOf exts w))) exts)
          else 0)
        = cnt p (scanCells
            (advIter (t - t0) (maskBase m (splitsOf exts w))
              (maskSlopes m (splitsOf exts w))) exts) :=
      fun m _ => if_pos hin
    rw [List.map_congr_left hpos, length_splitsOf]
    have hτw : 2 * ((t - t0 : Nat) : Int) + 2 ≤ w := by
      have heq : Int.tdiv w 2 = w / 2 := tdiv_two_nonneg w (by omega)
      rw [heq] at hth
      have h5 : t < t1 := hin.2
      have h6 : t0 ≤ t := hin.1
      omega
    rw [mask_sum w (t - t0) exts p hall hw hτw]
    by_cases hc : inCell p exts = true
    · simp [hin.1, hin.2, hc]
    · simp [hc]
  · have hneg : ∀ m ∈ List.range (2 ^ (splitsOf exts w).length),
        (if t0 ≤ t ∧ t < t1 then
            cnt p (scanCells
              (advIter (t - t0) (maskBase m (splitsOf exts w))
                (maskSlopes m (splitsOf exts w))) exts)
          else 0)
        = 0 :=
      fun m _ => if_neg hin
    rw [List.map_congr_left hneg, sum_map_zero]
    have hno : ¬ (t0 ≤ t ∧ t < t1 ∧ inCell p exts = true) := by
      intro hcon
      exact hin ⟨hcon.1, hcon.2.1⟩
    rw [if_neg hno]

theorem foldl_min_spec : ∀ (l : List Int) (a : Int),
    l.foldl min a ≤ a ∧ ∀ y ∈ l, l.foldl min a ≤ y := by
  intro l
  induction l with
  | nil => intro a; exact ⟨le_refl a, by simp⟩
  | cons x xs ih =>
    intro a
    simp only [List.foldl_cons]
    obtain ⟨h1, h2⟩ := ih (min a x)
    refine ⟨le_trans h1 (min_le_left a x), ?_⟩
    intro y hy
    rcases List.mem_cons.mp hy with hy | hy
    · rw [hy]; exact le_trans h1 (min_le_right a x)
    · exact h2 y hy

theorem minWidth_le (exts : List Int) : ∀ L ∈ exts, minWidth exts ≤ L := by
  cases exts with
  | nil => simp
  | cons x xs =>
    intro L hL
    obtain ⟨h1, h2⟩ := foldl_min_spec xs x
    rcases List.mem_cons.mp hL with hL | hL
    · subst hL; exact h1
    · exact h2 L hL

theorem foldl_min_ge (c : Int) : ∀ (l : List Int) (a : Int),
    c ≤ a → (∀ y ∈ l, c ≤ y) → c ≤ l.foldl min a := by
  intro l
  induction l with
  | nil => intro a ha _; exact ha
  | cons x xs ih =>
    intro a ha hall
    simp only [List.foldl_cons]
    exact ih (min a x) (le_min ha (hall x (List.mem_cons_self _ _)))
      (fun y hy => hall y (List.mem_cons_of_mem _ hy))

theorem minWidth_ge (exts : List Int) (c : Int) (hne : exts ≠ [])
    (hall : ∀ L ∈ exts, c ≤ L) : c ≤ minWidth exts := by
  cases exts with
  | nil => exact absurd rfl hne
  | cons x xs =>
    show c ≤ xs.foldl min x
    exact foldl_min_ge c xs x (hall x (List.mem_cons_self _ _))
      (fun y hy => hall y (List.mem_cons_of_mem _ hy))

/-- Exact single coverage of `[t0, steps) × grid` by the layers the
create loop emits from `t0` on. -/
theorem cnt_createLoopF (exts : List Int) (w : Int) (h : Nat)
    (hall : ∀ L ∈ exts, w ≤ L) (hw : 2 ≤ w)
    (hh : (h : Int) = Int.tdiv w 2) (steps : Nat) :
    ∀ (fuel t0 : Nat), steps ≤ t0 + fuel →
      ∃ plan, createLoopF (splitsOf exts w) h steps fuel t0 = some plan ∧
        ∀ (t : Nat) (p : List Int),
          cnt (t, p) (planCellsList plan exts)
            = if t0 ≤ t ∧ t < steps ∧ inCell p exts = true then 1 else 0 := by
  intro fuel
  induction fuel with
  | zero =>
    intro t0 hf
    refine ⟨[], by rw [createLoopF_unfold, if_pos (by omega)], ?_⟩
    intro t p
    show (0 : Nat) = _
    rw [if_neg (by omega)]
  | succ n ih =>
    intro t0 hf
    by_cases hg : steps ≤ t0
    · refine ⟨[], by rw [createLoopF_unfold, if_pos hg], ?_⟩
      intro t p
      show (0 : Nat) = _
      rw [if_neg (by omega)]
    · have hh1 : 1 ≤ h := by
        have hq : Int.tdiv w 2 = w / 2 := tdiv_two_nonneg w (by omega)
        rw [hq] at hh
        omega
      obtain ⟨rest, hrest, hcnt⟩ := ih (t0 + h) (by omega)
      refine ⟨mkLayer (splitsOf exts w) t0 (min (t0 + h) steps) :: rest, ?_, ?_⟩
      · rw [createLoopF_unfold, if_neg hg]
        show Option.map
            (fun r => mkLayer (splitsOf exts w) t0 (min (t0 + h) steps) :: r)
            (createLoopF (splitsOf exts w) h steps n (t0 + h)) = _
        rw [hrest]
        rfl
      · intro t p
        show cnt (t, p)
            ((mkLayer (splitsOf exts w) t0 (min (t0 + h) steps)).flatMap
                (fun z => forEachCells z exts)
              ++ planCellsList rest exts) = _
        rw [cnt_append, hcnt t p,
          cnt_layer exts w t0 (min (t0 + h) steps) t p hall hw (by omega)
            (by push_cast; omega)]
        by_cases hq : inCell p exts = true
        · simp only [hq, and_true]
          split_ifs <;> omega
        · simp [hq]

/-- Claim C4 counterexample: for the 1-D grid of (positive) extent 1 and
one step, the multiset of visited cells does not exist at all: the layer
height is `min_width/2 = 0` and `ExecutionPlan::create` never
terminates (no fuel completes it, cf. `createLoopF_height_zero`). -/
theorem c4_counterexample : createOpt [1] 1 = none := rfl

/-- Claim C4 (amended: all extents at least 2 instead of merely
positive): for every grid with extents `≥ 2` and every `steps ≥ 1`, plan
creation terminates and the multiset of space-time cells visited by
`forEach` over all zoids of all layers (with wrap-around against the
grid extents) contains each pair `(t, p)` with `0 ≤ t < steps` and `p`
in the grid exactly once, and nothing else. -/
theorem c4_plan_coverage (extents : List Int) (steps : Int)
    (hne : extents ≠ []) (h2 : ∀ L ∈ extents, 2 ≤ L) (hsteps : 1 ≤ steps) :
    ∃ plan, createOpt extents steps = some plan ∧
      ∀ (t : Nat) (p : List Int),
        cnt (t, p) (planCellsList plan extents)
          = if t < steps.toNat ∧ inCell p extents = true then 1 else 0 := by
  have hw : 2 ≤ minWidth extents := minWidth_ge extents 2 hne h2
  have hhI : ((planHeight extents : Nat) : Int) = Int.tdiv (minWidth extents) 2 := by
    unfold planHeight
    have hq : (0 : Int) ≤ Int.tdiv (minWidth extents) 2 :=
      Int.tdiv_nonneg (by omega) (by norm_num)
    omega
  obtain ⟨plan, hp, hc⟩ := cnt_createLoopF extents (minWidth extents)
    (planHeight extents) (minWidth_le extents) hw hhI steps.toNat
    steps.toNat 0 (by omega)
  refine ⟨plan, hp, ?_⟩
  intro t p
  rw [hc t p]
  have hiff : (0 ≤ t ∧ t < steps.toNat ∧ inCell p extents = true)
      ↔ (t < steps.toNat ∧ inCell p extents = true) := by
    simp [Nat.zero_le]
  rw [if_congr hiff rfl rfl]

theorem c4_plan_coverage_witness :
    ∃ plan, createOpt [2] 1 = some plan ∧
      ∀ (t : Nat) (p : List Int),
        cnt (t, p) (planCellsList plan [2])
          = if t < (1 : Int).toNat ∧ inCell p [2] = true then 1 else 0 :=
  c4_plan_coverage [2] 1 (by decide) (by decide) (by decide)

end StencilModel
